import Mathlib

/-!
Verification of the round-boundary reconstruction core of `worker/worker.py`
(Valorant round detection worker): the activity segmentation loop of
`extract_keyframes_and_detect_rounds` (lines 178-194), `build_rounds_from_wins`
(lines 205-250) and the failure-reason selection of `process_video`
(lines 275-294).

Timestamps are modelled as rationals.  Python's `round(x, 2)` is modelled as
rounding `100 * x` to the nearest integer; Python resolves exact ties to the
even neighbour while `round` here rounds half up, but no value appearing in a
concrete statement below sits on a tie.
-/

namespace Worker

/-- Output record of `build_rounds_from_wins` (worker.py 243-248).  The
source's dict keys are `round`, `start`, `end`, `duration`; the `end` key is
called `stop` here because `end` is reserved in Lean. -/
structure Round where
  round : ℕ
  start : ℚ
  stop : ℚ
  duration : ℚ
  deriving DecidableEq

/-- Two-decimal rounding applied when a Round is externalized
(`round(x, 2)` at worker.py 245-247). -/
def round2 (x : ℚ) : ℚ := ((round (100 * x) : ℤ) : ℚ) / 100

/-- Loop body of the activity segmentation at worker.py 183-194: walking the
remaining samples with the open period's start and the previous sample as
state, the open period is closed whenever the gap to the previous sample
exceeds 180 seconds, and the final open period is closed at the last sample. -/
def segAux (current_start last_timestamp : ℚ) : List ℚ → List (ℚ × ℚ)
  | [] => [(current_start, last_timestamp)]
  | t :: rest =>
    if t - last_timestamp > 180 then
      (current_start, last_timestamp) :: segAux t t rest
    else
      segAux current_start t rest

/-- Gameplay-period segmentation (worker.py 178-194): an empty sample list
gives no periods, otherwise the loop starts with both cursors at the first
sample. -/
def segment_activity : List ℚ → List (ℚ × ℚ)
  | [] => []
  | first :: rest => segAux first first rest

/-- Win timestamps lying inside the closed bound of some gameplay period
(worker.py 216-221). -/
def valid_wins (round_win_timestamps : List ℚ)
    (gameplay_periods : List (ℚ × ℚ)) : List ℚ :=
  round_win_timestamps.filter fun w =>
    gameplay_periods.any fun p => decide (p.1 ≤ w) && decide (w ≤ p.2)

/-- `gameplay_periods[0][0] if gameplay_periods else 0` (worker.py 228). -/
def first_gameplay_start : List (ℚ × ℚ) → ℚ
  | [] => 0
  | p :: _ => p.1

/-- Candidate intervals for the surviving wins after the first: each candidate
starts five seconds after the previous surviving win (`valid_wins[i - 1] + 5`,
which is the element processed just before) and ends at its own win
(worker.py 234-238). -/
def chain_candidates (prev : ℚ) : List ℚ → List (ℚ × ℚ)
  | [] => []
  | w :: rest => (prev + 5, w) :: chain_candidates w rest

/-- Candidate intervals for all surviving wins: the first candidate starts at
`max(first_gameplay_start, win - 90)` (worker.py 230-238). -/
def round_candidates (fgs : ℚ) : List ℚ → List (ℚ × ℚ)
  | [] => []
  | w0 :: rest => (max fgs (w0 - 90), w0) :: chain_candidates w0 rest

/-- Plausibility bound on a candidate's duration (worker.py 242). -/
def in_bounds (c : ℚ × ℚ) : Bool :=
  decide (30 ≤ c.2 - c.1 ∧ c.2 - c.1 ≤ 300)

/-- Accepting step of the loop at worker.py 241-248: a candidate whose
duration lies within 30..300 is appended with index `len(rounds) + 1` and
two-decimal rounded fields; any other candidate is dropped. -/
def accept_step (rounds : List Round) (c : ℚ × ℚ) : List Round :=
  if 30 ≤ c.2 - c.1 ∧ c.2 - c.1 ≤ 300 then
    rounds ++ [{ round := rounds.length + 1, start := round2 c.1,
                 stop := round2 c.2, duration := round2 (c.2 - c.1) }]
  else
    rounds

/-- Duration filter and index assignment over the whole candidate list. -/
def accept_rounds (cands : List (ℚ × ℚ)) : List Round :=
  cands.foldl accept_step []

/-- `build_rounds_from_wins` (worker.py 205-250). -/
def build_rounds_from_wins (round_win_timestamps : List ℚ)
    (gameplay_periods : List (ℚ × ℚ)) : List Round :=
  if round_win_timestamps = [] then []
  else if valid_wins round_win_timestamps gameplay_periods = [] then []
  else
    accept_rounds
      (round_candidates (first_gameplay_start gameplay_periods)
        (valid_wins round_win_timestamps gameplay_periods))

/-- Failure-reason selection of `process_video` (worker.py 275-294) with the
I/O (URL parsing, cache, frame extraction) abstracted away: the two timestamp
lists stand for what `extract_keyframes_and_detect_rounds` returned. -/
def process_result (round_win_timestamps : List ℚ)
    (gameplay_periods : List (ℚ × ℚ)) : Except String (List Round) :=
  if gameplay_periods = [] then Except.error "No gameplay detected"
  else if round_win_timestamps = [] then
    Except.error "No rounds detected - could not find \"ROUND WIN\" text"
  else
    let rounds := build_rounds_from_wins round_win_timestamps gameplay_periods
    if rounds = [] then Except.error "Could not build rounds from detected wins"
    else Except.ok rounds

/-! Concrete evaluations of the embedded functions, shared by the claim
theorems and witnesses below. -/

theorem concrete_rounds_95_280 :
    build_rounds_from_wins [95, 280] [(0, 400)] =
      [⟨1, 5, 95, 90⟩, ⟨2, 100, 280, 180⟩] := by
  norm_num [build_rounds_from_wins, valid_wins, first_gameplay_start,
    round_candidates, chain_candidates, accept_rounds, accept_step,
    round2, round_eq]
  simp

theorem concrete_rounds_boundary :
    build_rounds_from_wins [95, 130, 435] [(0, 500)] =
      [⟨1, 5, 95, 90⟩, ⟨2, 100, 130, 30⟩, ⟨3, 135, 435, 300⟩] := by
  norm_num [build_rounds_from_wins, valid_wins, first_gameplay_start,
    round_candidates, chain_candidates, accept_rounds, accept_step,
    round2, round_eq]
  simp

theorem concrete_rounds_too_short :
    build_rounds_from_wins [95, 120] [(0, 500)] = [⟨1, 5, 95, 90⟩] := by
  norm_num [build_rounds_from_wins, valid_wins, first_gameplay_start,
    round_candidates, chain_candidates, accept_rounds, accept_step,
    round2, round_eq]
  simp

theorem concrete_rounds_too_long :
    build_rounds_from_wins [95, 401] [(0, 500)] = [⟨1, 5, 95, 90⟩] := by
  norm_num [build_rounds_from_wins, valid_wins, first_gameplay_start,
    round_candidates, chain_candidates, accept_rounds, accept_step,
    round2, round_eq]
  simp

theorem concrete_rounds_dropped_middle :
    build_rounds_from_wins [95, 120, 280] [(0, 400)] =
      [⟨1, 5, 95, 90⟩, ⟨2, 125, 280, 155⟩] := by
  norm_num [build_rounds_from_wins, valid_wins, first_gameplay_start,
    round_candidates, chain_candidates, accept_rounds, accept_step,
    round2, round_eq]
  simp

theorem concrete_rounds_fractional :
    build_rounds_from_wins [55.002, 145.006] [(0, 400)] =
      [⟨1, 0, 55, 55⟩, ⟨2, 60, 14501 / 100, 85⟩] := by
  norm_num [build_rounds_from_wins, valid_wins, first_gameplay_start,
    round_candidates, chain_candidates, accept_rounds, accept_step,
    round2, round_eq]
  simp

theorem concrete_rounds_outside_start :
    build_rounds_from_wins [500] [(0, 10), (450, 600)] =
      [⟨1, 410, 500, 90⟩] := by
  norm_num [build_rounds_from_wins, valid_wins, first_gameplay_start,
    round_candidates, chain_candidates, accept_rounds, accept_step,
    round2, round_eq]

theorem concrete_seg_gap_185 :
    segment_activity [0, 185] = [(0, 0), (185, 185)] := by
  norm_num [segment_activity, segAux]

theorem concrete_seg_gap_175 :
    segment_activity [0, 175] = [(0, 175)] := by
  norm_num [segment_activity, segAux]

/-! Basic facts about the two-decimal rounding. -/

theorem round2_mono {x y : ℚ} (h : x ≤ y) : round2 x ≤ round2 y := by
  have h1 : round (100 * x) ≤ round (100 * y) := by
    rw [round_eq, round_eq]
    exact Int.floor_le_floor (by linarith)
  have h2 : ((round (100 * x) : ℤ) : ℚ) ≤ ((round (100 * y) : ℤ) : ℚ) := by
    exact_mod_cast h1
  unfold round2
  linarith

theorem round2_add_five (x : ℚ) : round2 (x + 5) = round2 x + 5 := by
  unfold round2
  have h : (100 : ℚ) * (x + 5) = 100 * x + ((500 : ℤ) : ℚ) := by push_cast; ring
  rw [h, round_add_int]
  push_cast
  ring

theorem round2_thirty : round2 30 = 30 := by
  norm_num [round2, round_eq]

theorem round2_three_hundred : round2 300 = 300 := by
  norm_num [round2, round_eq]

/-! Structural lemmas about the segmentation loop. -/

theorem segAux_no_split (ws : List ℚ) : ∀ cs lt : ℚ,
    List.Chain' (fun a b => b - a ≤ 180) (lt :: ws) →
    segAux cs lt ws = [(cs, ws.getLastD lt)] := by
  induction ws with
  | nil => intro cs lt _; simp [segAux]
  | cons w r ih =>
    intro cs lt h
    rw [List.chain'_cons] at h
    have hgap : ¬ (w - lt > 180) := by linarith [h.1]
    rw [List.getLastD_cons]
    simp only [segAux, hgap, if_false]
    exact ih cs w h.2

theorem segAux_append (t0 : ℚ) (u : List ℚ) (xs : List ℚ) : ∀ cs lt : ℚ,
    t0 - xs.getLastD lt > 180 →
    segAux cs lt (xs ++ t0 :: u) = segAux cs lt xs ++ segAux t0 t0 u := by
  induction xs with
  | nil =>
    intro cs lt h
    simp only [List.getLastD_nil] at h
    simp [segAux, h]
  | cons x xr ih =>
    intro cs lt h
    rw [List.getLastD_cons] at h
    by_cases hx : x - lt > 180
    · simp only [List.cons_append, segAux, hx, if_true, List.append_eq]
      rw [ih x x h]
    · simp only [List.cons_append, segAux, hx, if_false, List.append_eq]
      exact ih cs x h

/-- C7: `build_rounds_from_wins` returns `[]` for an empty event list and for
an empty period list, and `segment_activity` returns `[]` on empty input;
all three embedded functions are total, so no input raises. -/
theorem C7_empty_inputs :
    (∀ ps : List (ℚ × ℚ), build_rounds_from_wins [] ps = []) ∧
    (∀ evs : List ℚ, build_rounds_from_wins evs [] = []) ∧
    segment_activity [] = [] := by
  refine ⟨?_, ?_, rfl⟩
  · intro ps
    simp [build_rounds_from_wins]
  · intro evs
    have h : valid_wins evs [] = [] := by simp [valid_wins]
    simp [build_rounds_from_wins, h]

/-- C3: with no consecutive gap above 180 s an ascending sample list yields a
single period from its first to its last sample; a gap above 180 s at a
junction closes the open period at the sample before the gap and opens a new
one at the sample after it, so segmentation distributes over the junction;
concretely a 185 s gap splits and a 175 s gap does not. -/
theorem C3_gap_threshold :
    (∀ s : List ℚ, s ≠ [] →
        List.Chain' (fun a b => a ≤ b ∧ b - a ≤ 180) s →
        segment_activity s = [(s.headD 0, s.getLastD 0)]) ∧
    (∀ s t : List ℚ, s ≠ [] → t ≠ [] → t.headD 0 - s.getLastD 0 > 180 →
        segment_activity (s ++ t) = segment_activity s ++ segment_activity t) ∧
    segment_activity [0, 185] = [(0, 0), (185, 185)] ∧
    segment_activity [0, 175] = [(0, 175)] := by
  refine ⟨?_, ?_, concrete_seg_gap_185, concrete_seg_gap_175⟩
  · intro s hne hch
    match s with
    | s0 :: rest =>
      have h : List.Chain' (fun a b => b - a ≤ 180) (s0 :: rest) :=
        hch.imp fun _ _ hab => hab.2
      simp only [segment_activity, List.headD_cons, List.getLastD_cons]
      exact segAux_no_split rest s0 s0 h
  · intro s t hs ht hgap
    match s, t with
    | s0 :: srest, t0 :: trest =>
      simp only [List.headD_cons, List.getLastD_cons] at hgap
      simp only [List.cons_append, segment_activity]
      exact segAux_append t0 trest srest s0 s0 hgap

/-- Witness for C3 at concrete inputs. -/
theorem C3_witness : segment_activity [10, 20] = [(10, 20)] :=
  C3_gap_threshold.1 [10, 20] (by simp)
    (List.chain'_cons.mpr ⟨⟨by norm_num, by norm_num⟩, List.chain'_singleton 20⟩)

theorem segAux_fst_le_snd (ws : List ℚ) : ∀ cs lt : ℚ, cs ≤ lt →
    List.Chain' (· ≤ ·) (lt :: ws) →
    ∀ p ∈ segAux cs lt ws, p.1 ≤ p.2 := by
  induction ws with
  | nil =>
    intro cs lt hcl _ p hp
    simp only [segAux, List.mem_singleton] at hp
    simp [hp, hcl]
  | cons w r ih =>
    intro cs lt hcl hch p hp
    rw [List.chain'_cons] at hch
    by_cases hgap : w - lt > 180
    · simp only [segAux, hgap, if_true, List.mem_cons] at hp
      rcases hp with rfl | hp
      · exact hcl
      · exact ih w w le_rfl hch.2 p hp
    · simp only [segAux, hgap, if_false] at hp
      exact ih cs w (le_trans hcl hch.1) hch.2 p hp

theorem segAux_fst_ge (ws : List ℚ) : ∀ cs lt : ℚ, cs ≤ lt →
    List.Chain' (· ≤ ·) (lt :: ws) →
    ∀ p ∈ segAux cs lt ws, cs ≤ p.1 := by
  induction ws with
  | nil =>
    intro cs lt _ _ p hp
    simp only [segAux, List.mem_singleton] at hp
    simp [hp]
  | cons w r ih =>
    intro cs lt hcl hch p hp
    rw [List.chain'_cons] at hch
    by_cases hgap : w - lt > 180
    · simp only [segAux, hgap, if_true, List.mem_cons] at hp
      rcases hp with rfl | hp
      · exact le_rfl
      · have hw : w ≤ p.1 := ih w w le_rfl hch.2 p hp
        have : cs ≤ w := le_trans hcl hch.1
        linarith
    · simp only [segAux, hgap, if_false] at hp
      exact ih cs w (le_trans hcl hch.1) hch.2 p hp

theorem segAux_head (ws : List ℚ) : ∀ cs lt : ℚ,
    List.Chain' (· ≤ ·) (lt :: ws) →
    ∃ e : ℚ, ∃ tl : List (ℚ × ℚ),
      segAux cs lt ws = (cs, e) :: tl ∧ lt ≤ e := by
  induction ws with
  | nil =>
    intro cs lt _
    exact ⟨lt, [], by simp [segAux], le_rfl⟩
  | cons w r ih =>
    intro cs lt hch
    rw [List.chain'_cons] at hch
    by_cases hgap : w - lt > 180
    · exact ⟨lt, segAux w w r, by simp [segAux, hgap], le_rfl⟩
    · obtain ⟨e, tl, heq, hle⟩ := ih cs w hch.2
      exact ⟨e, tl, by simp [segAux, hgap, heq], le_trans hch.1 hle⟩

theorem segAux_pairwise (ws : List ℚ) : ∀ cs lt : ℚ, cs ≤ lt →
    List.Chain' (· ≤ ·) (lt :: ws) →
    List.Pairwise (fun p q : ℚ × ℚ => p.2 < q.1) (segAux cs lt ws) := by
  induction ws with
  | nil =>
    intro cs lt _ _
    simp [segAux]
  | cons w r ih =>
    intro cs lt hcl hch
    rw [List.chain'_cons] at hch
    by_cases hgap : w - lt > 180
    · simp only [segAux, hgap, if_true]
      rw [List.pairwise_cons]
      refine ⟨?_, ih w w le_rfl hch.2⟩
      intro q hq
      have hw : w ≤ q.1 := segAux_fst_ge r w w le_rfl hch.2 q hq
      linarith
    · simp only [segAux, hgap, if_false]
      exact ih cs w (le_trans hcl hch.1) hch.2

theorem segAux_cover (ws : List ℚ) : ∀ cs lt : ℚ, cs ≤ lt →
    List.Chain' (· ≤ ·) (lt :: ws) →
    ∀ x ∈ lt :: ws, ∃ p ∈ segAux cs lt ws, p.1 ≤ x ∧ x ≤ p.2 := by
  induction ws with
  | nil =>
    intro cs lt hcl _ x hx
    simp only [List.mem_singleton] at hx
    subst hx
    exact ⟨(cs, x), by simp [segAux], hcl, le_rfl⟩
  | cons w r ih =>
    intro cs lt hcl hch x hx
    rw [List.chain'_cons] at hch
    by_cases hgap : w - lt > 180
    · rcases List.mem_cons.mp hx with rfl | hx'
      · exact ⟨(cs, x), by simp [segAux, hgap], hcl, le_rfl⟩
      · obtain ⟨p, hp, hpx⟩ := ih w w le_rfl hch.2 x hx'
        exact ⟨p, by simp only [segAux, hgap, if_true]; exact List.mem_cons_of_mem _ hp, hpx⟩
    · simp only [segAux, hgap, if_false]
      rcases List.mem_cons.mp hx with rfl | hx'
      · obtain ⟨e, tl, heq, hle⟩ := segAux_head r cs w hch.2
        refine ⟨(cs, e), by rw [heq]; exact List.mem_cons_self _ _, hcl, ?_⟩
        exact le_trans hch.1 hle
      · exact ih cs w (le_trans hcl hch.1) hch.2 x hx'

theorem countP_contains_eq_one (L : List (ℚ × ℚ)) (x : ℚ)
    (hpw : List.Pairwise (fun p q : ℚ × ℚ => p.2 < q.1) L)
    (hex : ∃ p ∈ L, p.1 ≤ x ∧ x ≤ p.2) :
    L.countP (fun p => decide (p.1 ≤ x ∧ x ≤ p.2)) = 1 := by
  induction L with
  | nil =>
    rcases hex with ⟨p, hp, _⟩
    simp at hp
  | cons p rest ih =>
    rw [List.pairwise_cons] at hpw
    rw [List.countP_cons]
    by_cases hp : p.1 ≤ x ∧ x ≤ p.2
    · have h0 : rest.countP (fun q => decide (q.1 ≤ x ∧ x ≤ q.2)) = 0 := by
        rw [List.countP_eq_zero]
        intro q hq
        simp only [decide_eq_true_eq]
        intro hqx
        have := hpw.1 q hq
        linarith [hp.2, hqx.1]
      rw [h0]
      simp [hp]
    · rcases hex with ⟨q, hq, hqx⟩
      rcases List.mem_cons.mp hq with rfl | hq'
      · exact absurd hqx hp
      · simp only [hp, decide_eq_true_eq, if_false]
        have := ih hpw.2 ⟨q, hq', hqx⟩
        simpa [hp] using this

/-- C5: on an ascending sample list the returned periods have start at most
end, are pairwise disjoint in chronological order, and every input sample is
contained in the closed bound of exactly one period (the containment count
is one). -/
theorem C5_period_invariants :
    ∀ s : List ℚ, List.Chain' (· ≤ ·) s →
      (∀ p ∈ segment_activity s, p.1 ≤ p.2) ∧
      List.Pairwise (fun p q : ℚ × ℚ => p.2 < q.1) (segment_activity s) ∧
      (∀ x ∈ s, (segment_activity s).countP
          (fun p => decide (p.1 ≤ x ∧ x ≤ p.2)) = 1) := by
  intro s hs
  match s with
  | [] => simp [segment_activity]
  | s0 :: rest =>
    refine ⟨segAux_fst_le_snd rest s0 s0 le_rfl hs,
      segAux_pairwise rest s0 s0 le_rfl hs, ?_⟩
    intro x hx
    exact countP_contains_eq_one _ x (segAux_pairwise rest s0 s0 le_rfl hs)
      (segAux_cover rest s0 s0 le_rfl hs x hx)

/-- Witness for C5 at a concrete ascending sample list with one long gap. -/
theorem C5_witness :
    (∀ p ∈ segment_activity [0, 5, 200], p.1 ≤ p.2) ∧
    List.Pairwise (fun p q : ℚ × ℚ => p.2 < q.1) (segment_activity [0, 5, 200]) ∧
    (∀ x ∈ [(0 : ℚ), 5, 200], (segment_activity [0, 5, 200]).countP
        (fun p => decide (p.1 ≤ x ∧ x ≤ p.2)) = 1) :=
  C5_period_invariants [0, 5, 200]
    (List.chain'_cons.mpr ⟨by norm_num,
      List.chain'_cons.mpr ⟨by norm_num, List.chain'_singleton 200⟩⟩)

/-! Structural lemmas about the candidate list and the accepting fold. -/

theorem chain_candidates_map_snd (ws : List ℚ) : ∀ prev : ℚ,
    (chain_candidates prev ws).map Prod.snd = ws := by
  induction ws with
  | nil => intro prev; simp [chain_candidates]
  | cons w r ih => intro prev; simp [chain_candidates, ih w]

theorem round_candidates_map_snd (fgs : ℚ) (ws : List ℚ) :
    (round_candidates fgs ws).map Prod.snd = ws := by
  match ws with
  | [] => simp [round_candidates]
  | w0 :: rest => simp [round_candidates, chain_candidates_map_snd rest w0]

theorem chain_candidates_getElem (ws : List ℚ) : ∀ (prev : ℚ) (i : ℕ),
    i < ws.length →
    (chain_candidates prev ws)[i]? = some ((prev :: ws).getD i 0 + 5, ws.getD i 0) := by
  induction ws with
  | nil => intro prev i hi; simp at hi
  | cons w r ih =>
    intro prev i hi
    match i with
    | 0 => simp [chain_candidates]
    | k + 1 =>
      simp only [chain_candidates, List.getElem?_cons_succ, List.getD_cons_succ]
      exact ih w k (by simpa using hi)

theorem chain_candidates_start_ge (ws : List ℚ) : ∀ prev : ℚ,
    List.Chain' (· ≤ ·) (prev :: ws) →
    ∀ c ∈ chain_candidates prev ws, prev + 5 ≤ c.1 := by
  induction ws with
  | nil => intro prev _ c hc; simp [chain_candidates] at hc
  | cons w r ih =>
    intro prev hch c hc
    rw [List.chain'_cons] at hch
    simp only [chain_candidates, List.mem_cons] at hc
    rcases hc with rfl | hc
    · simp
    · have := ih w hch.2 c hc
      linarith [hch.1]

theorem chain_candidates_pairwise (ws : List ℚ) : ∀ prev : ℚ,
    List.Chain' (· ≤ ·) (prev :: ws) →
    List.Pairwise (fun c d : ℚ × ℚ => c.2 + 5 ≤ d.1) (chain_candidates prev ws) := by
  induction ws with
  | nil => intro prev _; simp [chain_candidates]
  | cons w r ih =>
    intro prev hch
    rw [List.chain'_cons] at hch
    simp only [chain_candidates]
    rw [List.pairwise_cons]
    exact ⟨chain_candidates_start_ge r w hch.2, ih w hch.2⟩

theorem round_candidates_pairwise (fgs : ℚ) (ws : List ℚ)
    (hch : List.Chain' (· ≤ ·) ws) :
    List.Pairwise (fun c d : ℚ × ℚ => c.2 + 5 ≤ d.1) (round_candidates fgs ws) := by
  match ws with
  | [] => simp [round_candidates]
  | w0 :: rest =>
    simp only [round_candidates]
    rw [List.pairwise_cons]
    exact ⟨chain_candidates_start_ge rest w0 hch, chain_candidates_pairwise rest w0 hch⟩

theorem mem_valid_wins {w : ℚ} {evs : List ℚ} {ps : List (ℚ × ℚ)} :
    w ∈ valid_wins evs ps ↔ w ∈ evs ∧ ∃ p ∈ ps, p.1 ≤ w ∧ w ≤ p.2 := by
  simp [valid_wins, List.mem_filter]

theorem valid_wins_chain (evs : List ℚ) (ps : List (ℚ × ℚ))
    (h : List.Chain' (· ≤ ·) evs) :
    List.Chain' (· ≤ ·) (valid_wins evs ps) := by
  rw [List.chain'_iff_pairwise] at h ⊢
  exact h.sublist (List.filter_sublist evs)

theorem build_rounds_eq (evs : List ℚ) (ps : List (ℚ × ℚ)) :
    build_rounds_from_wins evs ps =
      (round_candidates (first_gameplay_start ps)
        (valid_wins evs ps)).foldl accept_step [] := by
  by_cases h1 : evs = []
  · subst h1
    simp [build_rounds_from_wins, valid_wins, round_candidates]
  · by_cases h2 : valid_wins evs ps = []
    · simp [build_rounds_from_wins, h1, h2, round_candidates]
    · simp [build_rounds_from_wins, h1, h2, accept_rounds]

theorem accept_step_pos {c : ℚ × ℚ} (acc : List Round)
    (h : 30 ≤ c.2 - c.1 ∧ c.2 - c.1 ≤ 300) :
    accept_step acc c =
      acc ++ [⟨acc.length + 1, round2 c.1, round2 c.2, round2 (c.2 - c.1)⟩] :=
  if_pos h

theorem accept_step_neg {c : ℚ × ℚ} (acc : List Round)
    (h : ¬ (30 ≤ c.2 - c.1 ∧ c.2 - c.1 ≤ 300)) :
    accept_step acc c = acc :=
  if_neg h

theorem accept_foldl_length (cands : List (ℚ × ℚ)) : ∀ acc : List Round,
    (cands.foldl accept_step acc).length = acc.length + cands.countP in_bounds := by
  induction cands with
  | nil => intro acc; simp
  | cons c cs ih =>
    intro acc
    rw [List.foldl_cons, ih, List.countP_cons]
    by_cases h : 30 ≤ c.2 - c.1 ∧ c.2 - c.1 ≤ 300
    · have hb : in_bounds c = true := by simp [in_bounds, h]
      rw [accept_step_pos acc h, hb]
      simp only [List.length_append, List.length_singleton, if_true]
      omega
    · have hb : ¬ (in_bounds c = true) := by
        simp only [in_bounds, decide_eq_true_eq]
        exact h
      rw [accept_step_neg acc h, if_neg hb]
      omega

theorem accept_foldl_mem (cands : List (ℚ × ℚ)) : ∀ (acc : List Round) (r : Round),
    r ∈ cands.foldl accept_step acc →
    r ∈ acc ∨ ∃ c ∈ cands, (30 ≤ c.2 - c.1 ∧ c.2 - c.1 ≤ 300) ∧
      r.start = round2 c.1 ∧ r.stop = round2 c.2 ∧ r.duration = round2 (c.2 - c.1) := by
  induction cands with
  | nil => intro acc r h; exact Or.inl (by simpa using h)
  | cons c cs ih =>
    intro acc r h
    rw [List.foldl_cons] at h
    rcases ih _ r h with hacc | ⟨d, hd, hprop⟩
    · unfold accept_step at hacc
      by_cases hc : 30 ≤ c.2 - c.1 ∧ c.2 - c.1 ≤ 300
      · rw [if_pos hc] at hacc
        rcases List.mem_append.mp hacc with h1 | h2
        · exact Or.inl h1
        · right
          refine ⟨c, List.mem_cons_self _ _, hc, ?_⟩
          simp only [List.mem_singleton] at h2
          subst h2
          exact ⟨rfl, rfl, rfl⟩
      · rw [if_neg hc] at hacc
        exact Or.inl hacc
    · exact Or.inr ⟨d, List.mem_cons_of_mem _ hd, hprop⟩

theorem accept_foldl_indices (cands : List (ℚ × ℚ)) : ∀ acc : List Round,
    acc.map Round.round = List.range' 1 acc.length →
    (cands.foldl accept_step acc).map Round.round =
      List.range' 1 (cands.foldl accept_step acc).length := by
  induction cands with
  | nil => intro acc h; simpa using h
  | cons c cs ih =>
    intro acc h
    rw [List.foldl_cons]
    apply ih
    unfold accept_step
    by_cases hc : 30 ≤ c.2 - c.1 ∧ c.2 - c.1 ≤ 300
    · rw [if_pos hc]
      rw [List.map_append, h, List.length_append, List.length_singleton,
        List.range'_1_concat]
      simp only [List.map_cons, List.map_nil, List.append_cancel_left_eq,
        List.cons.injEq, and_true]
      omega
    · rw [if_neg hc]
      exact h

theorem accept_foldl_pairwise (cands : List (ℚ × ℚ)) : ∀ acc : List Round,
    List.Pairwise (fun c d : ℚ × ℚ => c.2 + 5 ≤ d.1) cands →
    List.Pairwise (fun r s : Round => r.stop < s.start) acc →
    (∀ r ∈ acc, ∀ c ∈ cands, r.stop + 5 ≤ round2 c.1) →
    List.Pairwise (fun r s : Round => r.stop < s.start)
      (cands.foldl accept_step acc) := by
  induction cands with
  | nil => intro acc _ h _; simpa using h
  | cons c cs ih =>
    intro acc hcands hacc hcross
    rw [List.pairwise_cons] at hcands
    rw [List.foldl_cons]
    apply ih _ hcands.2
    · unfold accept_step
      by_cases hc : 30 ≤ c.2 - c.1 ∧ c.2 - c.1 ≤ 300
      · rw [if_pos hc]
        rw [List.pairwise_append]
        refine ⟨hacc, List.pairwise_singleton _ _, ?_⟩
        intro r hr s hs
        simp only [List.mem_singleton] at hs
        subst hs
        have := hcross r hr c (List.mem_cons_self _ _)
        simp only []
        linarith
      · rw [if_neg hc]
        exact hacc
    · intro r hr d hd
      unfold accept_step at hr
      by_cases hc : 30 ≤ c.2 - c.1 ∧ c.2 - c.1 ≤ 300
      · rw [if_pos hc] at hr
        rcases List.mem_append.mp hr with h1 | h2
        · exact hcross r h1 d (List.mem_cons_of_mem _ hd)
        · simp only [List.mem_singleton] at h2
          subst h2
          have h5 : c.2 + 5 ≤ d.1 := hcands.1 d hd
          have := round2_mono h5
          rw [round2_add_five] at this
          simpa using this
      · rw [if_neg hc] at hr
        exact hcross r hr d (List.mem_cons_of_mem _ hd)

/-- C1: the candidate interval for surviving win `i` ends at that win; for
`i = 0` it starts at `max(first period start, win - 90)` and for `i > 0` it
starts at the previous surviving win plus 5; on events `[95, 280]` with the
single period `(0, 400)` the output is exactly rounds `(1, 5, 95, 90)` and
`(2, 100, 280, 180)`. -/
theorem C1_candidate_intervals :
    (∀ (evs : List ℚ) (ps : List (ℚ × ℚ)),
        (round_candidates (first_gameplay_start ps) (valid_wins evs ps)).map Prod.snd =
          valid_wins evs ps) ∧
    (∀ (evs : List ℚ) (ps : List (ℚ × ℚ)) (w0 : ℚ) (rest : List ℚ),
        valid_wins evs ps = w0 :: rest →
        (round_candidates (first_gameplay_start ps) (valid_wins evs ps))[0]? =
          some (max (first_gameplay_start ps) (w0 - 90), w0)) ∧
    (∀ (fgs : ℚ) (ws : List ℚ) (i : ℕ), 0 < i → i < ws.length →
        (round_candidates fgs ws)[i]? =
          some (ws.getD (i - 1) 0 + 5, ws.getD i 0)) ∧
    build_rounds_from_wins [95, 280] [(0, 400)] =
      [⟨1, 5, 95, 90⟩, ⟨2, 100, 280, 180⟩] := by
  refine ⟨?_, ?_, ?_, concrete_rounds_95_280⟩
  · intro evs ps
    exact round_candidates_map_snd _ _
  · intro evs ps w0 rest h
    rw [h]
    simp [round_candidates]
  · intro fgs ws i hpos hlen
    match ws, i with
    | [], i => simp at hlen
    | w0 :: rest, 0 => exact absurd hpos (by simp)
    | w0 :: rest, k + 1 =>
      simp only [round_candidates, List.getElem?_cons_succ, Nat.add_sub_cancel,
        List.getD_cons_succ]
      exact chain_candidates_getElem rest w0 k (by simpa using hlen)

/-- Witness for C1 at the second candidate of the concrete scenario. -/
theorem C1_witness :
    (round_candidates (first_gameplay_start [((0 : ℚ), (400 : ℚ))])
        (valid_wins [95, 280] [(0, 400)]))[1]? =
      some ((valid_wins [95, 280] [(0, 400)]).getD 0 0 + 5,
        (valid_wins [95, 280] [(0, 400)]).getD 1 0) :=
  C1_candidate_intervals.2.2.1 (first_gameplay_start [(0, 400)])
    (valid_wins [95, 280] [(0, 400)]) 1 (by norm_num) (by norm_num [valid_wins])

/-- C2: every output round's duration lies in the closed interval 30..300;
the number of output rounds equals the number of candidates whose raw
duration lies in that interval (so every out-of-bounds candidate is absent);
durations of exactly 30 and exactly 300 are accepted, durations 20 and 301
are dropped. -/
theorem C2_duration_bounds :
    (∀ (evs : List ℚ) (ps : List (ℚ × ℚ)), ∀ r ∈ build_rounds_from_wins evs ps,
        30 ≤ r.duration ∧ r.duration ≤ 300) ∧
    (∀ (evs : List ℚ) (ps : List (ℚ × ℚ)),
        (build_rounds_from_wins evs ps).length =
          (round_candidates (first_gameplay_start ps)
            (valid_wins evs ps)).countP in_bounds) ∧
    build_rounds_from_wins [95, 130, 435] [(0, 500)] =
      [⟨1, 5, 95, 90⟩, ⟨2, 100, 130, 30⟩, ⟨3, 135, 435, 300⟩] ∧
    build_rounds_from_wins [95, 120] [(0, 500)] = [⟨1, 5, 95, 90⟩] ∧
    build_rounds_from_wins [95, 401] [(0, 500)] = [⟨1, 5, 95, 90⟩] := by
  refine ⟨?_, ?_, concrete_rounds_boundary, concrete_rounds_too_short,
    concrete_rounds_too_long⟩
  · intro evs ps r hr
    rw [build_rounds_eq] at hr
    rcases accept_foldl_mem _ [] r hr with h0 | ⟨c, _, hc, _, _, hdur⟩
    · simp at h0
    · rw [hdur]
      constructor
      · have := round2_mono hc.1
        rwa [round2_thirty] at this
      · have := round2_mono hc.2
        rwa [round2_three_hundred] at this
  · intro evs ps
    rw [build_rounds_eq, accept_foldl_length]
    simp

/-- Witness for C2 on a concrete output round. -/
theorem C2_witness :
    30 ≤ (⟨1, 5, 95, 90⟩ : Round).duration ∧
      (⟨1, 5, 95, 90⟩ : Round).duration ≤ 300 :=
  C2_duration_bounds.1 [95, 280] [(0, 400)] ⟨1, 5, 95, 90⟩
    (by rw [concrete_rounds_95_280]; exact List.mem_cons_self _ _)

/-- C4: the index fields of the output are exactly 1, 2, ..., n in order,
with no gap left by rejected candidates; concretely a too-short middle
candidate is dropped and the next accepted round still gets index 2. -/
theorem C4_dense_indices :
    (∀ (evs : List ℚ) (ps : List (ℚ × ℚ)),
        (build_rounds_from_wins evs ps).map Round.round =
          List.range' 1 (build_rounds_from_wins evs ps).length) ∧
    build_rounds_from_wins [95, 120, 280] [(0, 400)] =
      [⟨1, 5, 95, 90⟩, ⟨2, 125, 280, 155⟩] := by
  refine ⟨?_, concrete_rounds_dropped_middle⟩
  intro evs ps
  rw [build_rounds_eq]
  exact accept_foldl_indices _ [] (by simp)

/-- C6: for ascending events and periods the output rounds are pairwise
disjoint in order: every later round's start is strictly greater than every
earlier round's end. -/
theorem C6_rounds_disjoint :
    ∀ (evs : List ℚ) (ps : List (ℚ × ℚ)),
      List.Chain' (· ≤ ·) evs →
      List.Chain' (fun p q : ℚ × ℚ => p.1 ≤ q.1) ps →
      List.Pairwise (fun r s : Round => r.stop < s.start)
        (build_rounds_from_wins evs ps) := by
  intro evs ps hev _
  rw [build_rounds_eq]
  apply accept_foldl_pairwise
  · exact round_candidates_pairwise _ _ (valid_wins_chain evs ps hev)
  · exact List.Pairwise.nil
  · intro r hr
    simp at hr

/-- Witness for C6 at the concrete scenario. -/
theorem C6_witness :
    List.Pairwise (fun r s : Round => r.stop < s.start)
      (build_rounds_from_wins [95, 280] [(0, 400)]) :=
  C6_rounds_disjoint [95, 280] [(0, 400)]
    (List.chain'_cons.mpr ⟨by norm_num, List.chain'_singleton 280⟩)
    (List.chain'_singleton _)

/-- C9 counterexample: on events `[55.002, 145.006]` with period `(0, 400)`
the second output round has duration 85 but externalized end minus
externalized start equal to 85.01, so `duration = end - start` fails over the
externalized fields. -/
theorem C9_rounding_counterexample :
    (build_rounds_from_wins [55.002, 145.006] [(0, 400)]).getD 1 ⟨0, 0, 0, 0⟩ =
      ⟨2, 60, 14501 / 100, 85⟩ ∧
    (⟨2, 60, 14501 / 100, 85⟩ : Round).duration ≠
      (⟨2, 60, 14501 / 100, 85⟩ : Round).stop -
        (⟨2, 60, 14501 / 100, 85⟩ : Round).start := by
  constructor
  · rw [concrete_rounds_fractional]
    simp
  · show (85 : ℚ) ≠ 14501 / 100 - 60
    norm_num

/-- C9 as amended: rounding happens only at externalization — every output
round's start, end and duration are the two-decimal roundings of an unrounded
candidate's start, end and end-minus-start, the internal chaining being done
on the unrounded values. -/
theorem C9_externalization_rounding :
    ∀ (evs : List ℚ) (ps : List (ℚ × ℚ)), ∀ r ∈ build_rounds_from_wins evs ps,
      ∃ c ∈ round_candidates (first_gameplay_start ps) (valid_wins evs ps),
        r.start = round2 c.1 ∧ r.stop = round2 c.2 ∧
          r.duration = round2 (c.2 - c.1) := by
  intro evs ps r hr
  rw [build_rounds_eq] at hr
  rcases accept_foldl_mem _ [] r hr with h0 | ⟨c, hc, _, hprop⟩
  · simp at h0
  · exact ⟨c, hc, hprop⟩

/-- Witness for the amended C9 at a concrete output round. -/
theorem C9_witness :
    ∃ c ∈ round_candidates (first_gameplay_start [((0 : ℚ), (400 : ℚ))])
        (valid_wins [95, 280] [(0, 400)]),
      (⟨2, 100, 280, 180⟩ : Round).start = round2 c.1 ∧
      (⟨2, 100, 280, 180⟩ : Round).stop = round2 c.2 ∧
      (⟨2, 100, 280, 180⟩ : Round).duration = round2 (c.2 - c.1) :=
  C9_externalization_rounding [95, 280] [(0, 400)] ⟨2, 100, 280, 180⟩
    (by rw [concrete_rounds_95_280]; simp)

/-- C10: every output round's end is the externalization of one of the input
event timestamps and that event lies inside some input period's closed bound;
no such containment holds for starts: on events `[500]` with periods
`[(0, 10), (450, 600)]` the output round starts at 410, inside no period. -/
theorem C10_round_end_is_valid_event :
    (∀ (evs : List ℚ) (ps : List (ℚ × ℚ)), ∀ r ∈ build_rounds_from_wins evs ps,
        ∃ e ∈ evs, (∃ p ∈ ps, p.1 ≤ e ∧ e ≤ p.2) ∧ r.stop = round2 e) ∧
    build_rounds_from_wins [500] [(0, 10), (450, 600)] = [⟨1, 410, 500, 90⟩] ∧
    (∀ p ∈ [((0 : ℚ), (10 : ℚ)), ((450 : ℚ), (600 : ℚ))],
        ¬ (p.1 ≤ (⟨1, 410, 500, 90⟩ : Round).start ∧
           (⟨1, 410, 500, 90⟩ : Round).start ≤ p.2)) := by
  refine ⟨?_, concrete_rounds_outside_start, ?_⟩
  · intro evs ps r hr
    rw [build_rounds_eq] at hr
    rcases accept_foldl_mem _ [] r hr with h0 | ⟨c, hc, _, _, hstop, _⟩
    · simp at h0
    · have hsnd : c.2 ∈ valid_wins evs ps := by
        rw [← round_candidates_map_snd (first_gameplay_start ps) (valid_wins evs ps)]
        exact List.mem_map_of_mem Prod.snd hc
      obtain ⟨he, hp⟩ := mem_valid_wins.mp hsnd
      exact ⟨c.2, he, hp, hstop⟩
  · intro p hp
    rcases List.mem_cons.mp hp with rfl | hp'
    · norm_num
    · rcases List.mem_singleton.mp hp' with rfl
      norm_num

/-- Witness for C10 at the concrete scenario. -/
theorem C10_witness :
    ∃ e ∈ [(500 : ℚ)],
      (∃ p ∈ [((0 : ℚ), (10 : ℚ)), ((450 : ℚ), (600 : ℚ))], p.1 ≤ e ∧ e ≤ p.2) ∧
      (⟨1, 410, 500, 90⟩ : Round).stop = round2 e :=
  C10_round_end_is_valid_event.1 [500] [(0, 10), (450, 600)] ⟨1, 410, 500, 90⟩
    (by rw [concrete_rounds_outside_start]; simp)

/-- C8 counterexample: with the nonempty period list `[(0, 10)]` and the
nonempty event list `[20]` no event survives the validity filter, yet the
caller's reason string is the distinct string of `worker.py` line 293, not
the "no rounds detected" string of line 284. -/
theorem C8_reason_counterexample :
    valid_wins [20] [(0, 10)] = [] ∧
    process_result [20] [(0, 10)] =
      Except.error "Could not build rounds from detected wins" ∧
    "Could not build rounds from detected wins" ≠
      "No rounds detected - could not find \"ROUND WIN\" text" := by
  have hv : valid_wins [20] [(0, 10)] = [] := by
    norm_num [valid_wins]
  have hb : build_rounds_from_wins [20] [(0, 10)] = [] := by
    simp [build_rounds_from_wins, hv]
  refine ⟨hv, ?_, by decide⟩
  simp [process_result, hb]

/-- C8 as amended: empty periods give the "No gameplay detected" reason;
nonempty periods with an empty raw event list give the "No rounds detected"
reason; nonempty periods and events with no survivor of the validity filter
give the "Could not build rounds from detected wins" reason; and the three
reason strings are pairwise distinct, so the conditions are distinguishable. -/
theorem C8_reason_strings :
    ∀ (wins : List ℚ) (ps : List (ℚ × ℚ)),
      (ps = [] → process_result wins ps = Except.error "No gameplay detected") ∧
      (ps ≠ [] → wins = [] →
        process_result wins ps =
          Except.error "No rounds detected - could not find \"ROUND WIN\" text") ∧
      (ps ≠ [] → wins ≠ [] → valid_wins wins ps = [] →
        process_result wins ps =
          Except.error "Could not build rounds from detected wins") ∧
      "No gameplay detected" ≠
        "No rounds detected - could not find \"ROUND WIN\" text" ∧
      "No gameplay detected" ≠ "Could not build rounds from detected wins" ∧
      "No rounds detected - could not find \"ROUND WIN\" text" ≠
        "Could not build rounds from detected wins" := by
  intro wins ps
  refine ⟨?_, ?_, ?_, by decide, by decide, by decide⟩
  · intro h
    simp [process_result, h]
  · intro h1 h2
    simp [process_result, h1, h2]
  · intro h1 h2 h3
    have hb : build_rounds_from_wins wins ps = [] := by
      simp [build_rounds_from_wins, h2, h3]
    simp [process_result, h1, h2, hb]

/-- Witness for the amended C8 at a concrete filtered-out event. -/
theorem C8_witness :
    process_result [30] [(0, 10)] =
      Except.error "Could not build rounds from detected wins" :=
  (C8_reason_strings [30] [(0, 10)]).2.2.1 (by simp) (by simp)
    (by norm_num [valid_wins])

end Worker
